import Mathlib

/- Verification of the audio score-following core of the Evaluator-Audio-App
   repository: a shallow embedding of the intonation estimator
   (src/src/audio/Intonation.tsx), the warped-time mapper
   (src/src/utils/osmdUtils.tsx), the backward-path query and step of the
   score follower (src/src/audio/ScoreFollower.tsx and the unnamed variant),
   and a spec-modelled online time warping engine, with theorems settling the
   specification claims. -/

/-- Model of a JavaScript number: either an actual (rational) value or NaN. -/
inductive Val where
  | num (q : ℚ)
  | nan
deriving DecidableEq

/-- Whether a modelled JavaScript number is NaN. -/
def Val.isNanB : Val → Bool
  | .nan => true
  | .num _ => false

/-- Truncation of a rational toward zero, as JavaScript computes the integral
    quotient for its remainder operator. -/
def ratTrunc (q : ℚ) : ℤ :=
  if 0 ≤ q then ⌊q⌋ else ⌈q⌉

/-- JavaScript remainder a % b: the result has the sign of the dividend. -/
def jsRem (a b : ℚ) : ℚ :=
  a - b * (ratTrunc (a / b) : ℚ)

/-- JavaScript Array.prototype.slice, tolerating negative and out-of-range
    indices exactly as the runtime does. -/
def jsSlice {α : Type} (l : List α) (start stop : ℤ) : List α :=
  let n : ℤ := l.length
  let s := if start < 0 then max (n + start) 0 else min start n
  let e := if stop < 0 then max (n + stop) 0 else min stop n
  (l.drop s.toNat).take (e - s).toNat

/-- Constant OCTAVE_OFF_THRESHOLD from src/src/audio/Intonation.tsx. -/
def OCTAVE_OFF_THRESHOLD : ℤ := 2

/-- Constant SEMITONE_THRESHOLD from src/src/audio/Intonation.tsx. -/
def SEMITONE_THRESHOLD : ℚ := 2

/-- Ascending insertion into a sorted list, used to model the JS numeric sort
    numbers.sort((a, b) => a - b). -/
def insertAsc (x : ℚ) : List ℚ → List ℚ
  | [] => [x]
  | y :: ys => if x ≤ y then x :: y :: ys else y :: insertAsc x ys

/-- Ascending sort of rationals. -/
def sortAsc (l : List ℚ) : List ℚ := l.foldr insertAsc []

/-- listMedian from src/src/audio/Intonation.tsx. The result none models the
    null the function returns for an empty list. -/
def listMedian (numbers : List ℚ) : Option ℚ :=
  if numbers.length = 0 then none
  else
    let sorted := sortAsc numbers
    let mid := sorted.length / 2
    if sorted.length % 2 = 0 then some ((sorted.getD (mid - 1) 0 + sorted.getD mid 0) / 2)
    else some (sorted.getD mid 0)

/-- windowNumPerTs from src/src/audio/Intonation.tsx. -/
def windowNumPerTs (timestamps : List ℚ) (sampleRate hopLength : ℚ) : List ℤ :=
  timestamps.map fun ts => ⌊ts * sampleRate / hopLength⌋

/-- The candidate-to-deviation map inside estimatePitchesAtTimestamps
    (src/src/audio/Intonation.tsx, lines 92-103). none models returning
    undefined, which the subsequent filter removes. -/
def diffOfCandidate (scorePitch : ℚ) (candidate : Val) : Option ℚ :=
  match candidate with
  | .nan => none
  | .num c =>
    let d := c - scorePitch
    if 12 < |d| then
      if OCTAVE_OFF_THRESHOLD < ⌊d / 12⌋ then none
      else
        let d2 := jsRem d 12
        if SEMITONE_THRESHOLD < d2 then none else some d2
    else if SEMITONE_THRESHOLD < d then none else some d

/-- Map with the element index, as the JS callback map((x, idx) => ...)
    receives it; structural recursion for the sake of evaluation. -/
def mapIdxFrom {α β : Type} (f : ℕ → α → β) : ℕ → List α → List β
  | _, [] => []
  | i, x :: xs => f i x :: mapIdxFrom f (i + 1) xs

/-- The per-query aggregate sizes (src/src/audio/Intonation.tsx, lines 65-84). -/
def aggregateSizes (wins : List ℤ) (pitchCount : ℕ) : List ℤ :=
  mapIdxFrom (fun idx w =>
    let a0 : ℤ := if idx < wins.length - 1 then ((wins.getD (idx + 1) 0) - w).fdiv 2 else 10
    if (pitchCount : ℤ) ≤ w + a0 then ((pitchCount : ℤ) - w) - 1 else a0) 0 wins

/-- estimatePitchesAtTimestamps from src/src/audio/Intonation.tsx (the logging
    flag only drives console output and is omitted). The final JS expression
    scorePitches[idx] + listMedian(diffAggregate) coerces a null median to 0,
    which .getD 0 mirrors. Callers pass scorePitches of the same length as
    timestamps, so indexing into scorePitches is modelled with .getD. -/
def estimatePitchesAtTimestamps (timestamps : List ℚ) (pitches : List Val)
    (scorePitches : List ℚ) (sampleRate hopLength : ℚ) : List ℚ :=
  let wins := windowNumPerTs timestamps sampleRate hopLength
  let aggs := aggregateSizes wins pitches.length
  mapIdxFrom (fun idx w =>
    let scorePitch := scorePitches.getD idx 0
    let agg := aggs.getD idx 0
    let rawAggregate := jsSlice pitches w (w + agg)
    let diffAggregate := (rawAggregate.map (diffOfCandidate scorePitch)).filterMap id
    scorePitch + (listMedian diffAggregate).getD 0) 0 wins

/-- Error raised by hzToMidi on a non-positive frequency. -/
inductive IntonErr where
  | nonPositiveFrequency
deriving DecidableEq

/-- hzToMidi from src/src/audio/Intonation.tsx. Math.log2 is passed in as a
    parameter since the claims do not depend on its values. -/
def hzToMidi (log2 : ℚ → ℚ) (frequency : ℚ) : Except IntonErr ℚ :=
  if frequency ≤ 0 then .error .nonPositiveFrequency
  else .ok (69 + 12 * log2 (frequency / 440))

/-- calculateF0s from src/src/audio/Intonation.tsx. The pitchy McLeod detector
    is an external library, modelled as the detector parameter applied to each
    hop-sized window (the sample rate it receives is folded into detector). -/
def calculateF0s (detector : List Val → ℚ) (audioSamples : List Val)
    (winLen hopLen : ℕ) : List Val :=
  let numWins : ℤ := ((audioSamples.length : ℤ) - (winLen : ℤ)).fdiv (hopLen : ℤ) + 1
  let numWins := if numWins < 0 then 0 else numWins
  (List.range numWins.toNat).map fun m =>
    Val.num (detector (jsSlice audioSamples ((m : ℤ) * hopLen) ((m : ℤ) * hopLen + winLen)))

/-- Lift hzToMidi to modelled JS numbers: a NaN frequency fails the check
    frequency <= 0 and propagates as NaN through the logarithm. -/
def hzToMidiVal (log2 : ℚ → ℚ) : Val → Except IntonErr Val
  | .nan => .ok .nan
  | .num f => (hzToMidi log2 f).map Val.num

/-- calculateIntonation from src/src/audio/Intonation.tsx: every detected f0
    is passed through hzToMidi before estimation, and a throw inside that map
    aborts the whole call. -/
def calculateIntonation (detector : List Val → ℚ) (log2 : ℚ → ℚ)
    (audioSamples : List Val) (scorePitches : List ℚ) (audioTimes : List ℚ)
    (sampleRate : ℚ) (winLen hopLen : ℕ) : Except IntonErr (List ℚ) :=
  (calculateF0s detector audioSamples winLen hopLen).mapM (hzToMidiVal log2) >>=
    fun audioPitches =>
      pure (estimatePitchesAtTimestamps audioTimes audioPitches scorePitches sampleRate hopLen)

/-- The index-finding loop of calculateWarpedTimes
    (src/src/utils/osmdUtils.tsx, lines 326-334): running state is the current
    position, the best index and the best absolute difference so far. -/
def jsArgminAbsGo : List ℚ → ℕ → ℕ → ℚ → ℕ
  | [], _, bestIdx, _ => bestIdx
  | x :: rest, i, bestIdx, bestAbs =>
    if |x| < bestAbs then jsArgminAbsGo rest (i + 1) i |x|
    else jsArgminAbsGo rest (i + 1) bestIdx bestAbs

/-- Index of the first element of minimal absolute value, as the JS loop
    computes it (starting from index 0 and updating on strict decrease). -/
def jsArgminAbs : List ℚ → ℕ
  | [] => 0
  | x :: rest => jsArgminAbsGo rest 1 0 |x|

/-- The body of calculateWarpedTimes for one query reference time
    (src/src/utils/osmdUtils.tsx, lines 322-365). -/
def warpOne (refPathTimes livePathTimes : List ℚ) (stepSize q : ℚ) : ℚ :=
  let diffs := refPathTimes.map fun t => t - q
  let idx := jsArgminAbs diffs
  let pair :=
    if 0 ≤ diffs.getD idx 0 ∧ 0 < idx then (idx - 1, idx)
    else if idx + 1 < livePathTimes.length then (idx, idx + 1)
    else (idx, idx)
  if pair.1 = pair.2 then livePathTimes.getD pair.1 0
  else
    let queryRefOffset := q - refPathTimes.getD pair.1 0
    let queryOffsetNorm := if queryRefOffset = 0 then 0 else queryRefOffset / stepSize
    let liveMaxOffset := livePathTimes.getD pair.2 0 - livePathTimes.getD pair.1 0
    livePathTimes.getD pair.1 0 + liveMaxOffset * queryOffsetNorm

/-- calculateWarpedTimes from src/src/utils/osmdUtils.tsx. -/
def calculateWarpedTimes (warpingPath : List (ℤ × ℤ)) (stepSize : ℚ)
    (refTimes : List ℚ) : List ℚ :=
  let refPathTimes := warpingPath.map fun pr => (pr.1 : ℚ) * stepSize
  let livePathTimes := warpingPath.map fun pr => (pr.2 : ℚ) * stepSize
  refTimes.map (warpOne refPathTimes livePathTimes stepSize)

/-- A JavaScript value read out of the cost matrix: a number, NaN, or the
    undefined produced by an out-of-range array index. -/
inductive JsVal where
  | num (q : ℚ)
  | nan
  | undefined
deriving DecidableEq

/-- Math.min over two arguments: every argument is coerced with ToNumber
    (undefined becomes NaN) and any NaN makes the result NaN. -/
def jsMinVal : JsVal → JsVal → JsVal
  | .num a, .num b => .num (min a b)
  | _, _ => .nan

/-- JavaScript strict equality on these values: NaN is not equal to anything,
    including itself. -/
def jsStrictEq : JsVal → JsVal → Bool
  | .num a, .num b => decide (a = b)
  | .undefined, .undefined => true
  | _, _ => false

/-- The TypeError raised when a property is read from undefined. -/
inductive JsErr where
  | typeError
deriving DecidableEq

/-- Reading row[t] where row exists: an out-of-range index yields undefined
    without raising. -/
def rowGet (row : List ℚ) (t : ℤ) : JsVal :=
  if 0 ≤ t ∧ t.toNat < row.length then .num (row.getD t.toNat 0) else .undefined

/-- Reading costMatrix[j][t]: if j is out of range then costMatrix[j] is
    undefined and reading [t] from it throws a TypeError. -/
def matGet (mat : List (List ℚ)) (j t : ℤ) : Except JsErr JsVal :=
  if 0 ≤ j ∧ j.toNat < mat.length then .ok (rowGet (mat.getD j.toNat []) t)
  else .error .typeError

/-- The while loop of ScoreFollower.getBackwardsPath
    (src/src/audio/ScoreFollower.tsx, lines 97-115), with explicit fuel for
    termination. The loop guard in the source also tests
    !backwardsPath.includes([0, 0]); Array.prototype.includes compares the
    fresh array literal [0, 0] by reference, so that test is always false and
    is modelled away. Reads of costMatrix happen in source order
    (down, then left, then diag), so the first out-of-range row read throws. -/
def getBackwardsPathGo (mat : List (List ℚ)) (refIdx b : ℤ) :
    ℕ → ℤ → ℤ → List (ℤ × ℤ) → Except JsErr (List (ℤ × ℤ))
  | 0, _, _, acc => .ok acc
  | fuel + 1, j, t, acc =>
    if refIdx - b < j then
      match matGet mat (j - 1) t with
      | .error e => .error e
      | .ok down =>
        match matGet mat j (t - 1) with
        | .error e => .error e
        | .ok leftv =>
          match matGet mat (j - 1) (t - 1) with
          | .error e => .error e
          | .ok diag =>
            let minimum := jsMinVal (jsMinVal down leftv) diag
            if jsStrictEq minimum down then
              getBackwardsPathGo mat refIdx b fuel (j - 1) t (acc ++ [(j - 1, t)])
            else if jsStrictEq minimum leftv then
              getBackwardsPathGo mat refIdx b fuel j (t - 1) (acc ++ [(j, t - 1)])
            else
              getBackwardsPathGo mat refIdx b fuel (j - 1) (t - 1) (acc ++ [(j - 1, t - 1)])
    else .ok acc

/-- ScoreFollower.getBackwardsPath (src/src/audio/ScoreFollower.tsx,
    lines 91-118) as a function of the engine cost matrix and indices. The
    fuel bound exceeds the number of iterations any terminating run performs. -/
def getBackwardsPath (mat : List (List ℚ)) (refIdx liveIdx b : ℤ) :
    Except JsErr (List (ℤ × ℤ)) :=
  getBackwardsPathGo mat refIdx b
    (b.toNat + refIdx.toNat + liveIdx.toNat + mat.length + 8) refIdx liveIdx []

/-- Parameters of the online time warping engine (spec section 4.2 and the
    ScoreFollower.create defaults). -/
structure OtwParams where
  c : ℕ
  maxRunCount : ℕ
  diagWeight : ℚ
deriving DecidableEq

/-- The three step directions the engine can take (spec section 4.2, step 2). -/
inductive Dir where
  | ref
  | live
  | both
deriving DecidableEq

/-- Minimum of two optional costs where none stands for plus infinity. -/
def optMin : Option ℚ → Option ℚ → Option ℚ
  | none, b => b
  | some a, none => some a
  | some a, some b => some (min a b)

/-- Strict comparison of optional costs where none stands for plus infinity. -/
def optLt : Option ℚ → Option ℚ → Bool
  | some a, some b => decide (a < b)
  | some _, none => true
  | none, _ => false

/-- Modelled from the spec: mutable state of the online time warping engine
    (spec section 4.2), whose implementation (the Otw / OnlineTimeWarping
    module imported by ScoreFollower) is not under src/. Cost cells are kept
    as an association list keyed by (referenceIndex, liveIndex); dirTrace
    records every chosen direction for stating the run-length invariant. -/
structure OtwState where
  refIndex : ℕ
  liveIndex : ℤ
  costCells : List ((ℕ × ℤ) × ℚ)
  lastDir : Option Dir
  runCount : ℕ
  dirTrace : List Dir
deriving DecidableEq

/-- Lookup of one accumulated-cost cell; none stands for a missing cell. -/
def cellLookup (cells : List ((ℕ × ℤ) × ℚ)) (i : ℕ) (t : ℤ) : Option ℚ :=
  (cells.find? fun e => e.1 = (i, t)).map fun e => e.2

/-- Modelled from the spec: the engine bound to one reference feature
    sequence (read-only after construction). -/
structure Otw where
  params : OtwParams
  refSeq : List (List Val)
  state : OtwState
deriving DecidableEq

/-- A feature vector is malformed when it contains NaN. -/
def featureHasNan (v : List Val) : Bool := v.any Val.isNanB

/-- Modelled from the spec: the reference sequence is malformed when any of
    its vectors contains NaN or has a dimension different from the first. -/
def refMalformed (refSeq : List (List Val)) : Bool :=
  refSeq.any fun v => featureHasNan v || decide (v.length ≠ (refSeq.headD []).length)

/-- Modelled from the spec: a live feature vector is malformed when it
    contains NaN or its dimension differs from the reference dimension. -/
def liveMalformed (refSeq : List (List Val)) (v : List Val) : Bool :=
  featureHasNan v || decide (v.length ≠ (refSeq.headD []).length)

/-- Modelled from the spec: the directions not disallowed by the run-length
    constraint. If the engine has already advanced the same axis for
    maxRunCount consecutive steps, that axis is disallowed this step
    (spec section 4.2, step 2). -/
def allowedDirs (p : OtwParams) (s : OtwState) : List Dir :=
  match s.lastDir with
  | some Dir.ref =>
    if p.maxRunCount ≤ s.runCount then [Dir.live, Dir.both]
    else [Dir.ref, Dir.live, Dir.both]
  | some Dir.live =>
    if p.maxRunCount ≤ s.runCount then [Dir.ref, Dir.both]
    else [Dir.ref, Dir.live, Dir.both]
  | _ => [Dir.ref, Dir.live, Dir.both]

/-- Modelled from the spec: pick the allowed direction of minimal candidate
    cost, earlier entries of the allowed list winning ties. -/
def chooseDir (allowed : List Dir) (costOf : Dir → Option ℚ) : Dir :=
  match allowed with
  | [] => Dir.both
  | d :: rest => rest.foldl (fun best x => if optLt (costOf x) (costOf best) then x else best) d

/-- Modelled from the spec: the cost cell each direction would move the
    frontier to after the live index has already advanced to t. -/
def candCost (cells : List ((ℕ × ℤ) × ℚ)) (j : ℕ) (t : ℤ) : Dir → Option ℚ
  | Dir.ref => cellLookup cells (j + 1) (t - 1)
  | Dir.live => cellLookup cells j t
  | Dir.both => cellLookup cells (j + 1) t

/-- Modelled from the spec: fill column t of the cost window for reference
    indices in the band [j - c, j + c] clamped to the reference sequence,
    using cost[i][t] = dist(i, t) + min(cost[i-1][t], cost[i][t-1],
    diagWeight * cost[i-1][t-1]); missing neighbors are plus infinity, and
    the origin (0, 0) has no diagonal predecessor and uses a cost 0 baseline. -/
def updateColumn (dist : List Val → List Val → ℚ) (refSeq : List (List Val))
    (p : OtwParams) (cells : List ((ℕ × ℤ) × ℚ)) (j : ℕ) (t : ℤ) (v : List Val) :
    List ((ℕ × ℤ) × ℚ) :=
  let lo := j - p.c
  let hi := min (j + p.c) (refSeq.length - 1)
  (List.range (hi + 1 - lo)).foldl
    (fun cs k =>
      let i := lo + k
      let d := dist (refSeq.getD i []) v
      let up := if i = 0 then none else cellLookup cs (i - 1) t
      let leftc := cellLookup cs i (t - 1)
      let diagc :=
        if i = 0 then (if t = 0 then some 0 else none)
        else Option.map (fun x => p.diagWeight * x) (cellLookup cs (i - 1) (t - 1))
      match optMin up (optMin leftc diagc) with
      | none => cs
      | some prev => cs ++ [((i, t), d + prev)])
    cells

/-- Failure of a single step (spec section 7 taxonomy). -/
inductive StepErr where
  | featureMismatch
deriving DecidableEq

/-- Modelled from the spec: insert of the online time warping engine (spec
    section 4.2). The live index advances by one; a column of cost cells is
    computed; one direction is chosen among those the run-length constraint
    allows; the reference index advances unless the direction is live-only;
    cells with reference index below j - c are evicted; a malformed live
    feature or reference sequence fails atomically with FeatureMismatch. -/
def Otw.insert (dist : List Val → List Val → ℚ) (o : Otw) (v : List Val) :
    Except StepErr (ℕ × Otw) :=
  if liveMalformed o.refSeq v || refMalformed o.refSeq then .error .featureMismatch
  else
    let t := o.state.liveIndex + 1
    let cells := updateColumn dist o.refSeq o.params o.state.costCells o.state.refIndex t v
    let d := chooseDir (allowedDirs o.params o.state) (candCost cells o.state.refIndex t)
    let j := o.state.refIndex + (if d = Dir.live then 0 else 1)
    let rs : Option Dir × ℕ :=
      match d, o.state.lastDir with
      | Dir.both, _ => (some Dir.both, 0)
      | dd, some prev => if dd = prev then (some dd, o.state.runCount + 1) else (some dd, 1)
      | dd, none => (some dd, 1)
    let kept := cells.filter fun e => (j : ℤ) - (o.params.c : ℤ) ≤ (e.1.1 : ℤ)
    .ok (j, { o with state := { refIndex := j, liveIndex := t, costCells := kept,
                                lastDir := rs.1, runCount := rs.2,
                                dirTrace := o.state.dirTrace ++ [d] } })

/-- The ScoreFollower session state: sample rate, window length, the engine
    and the cumulative alignment path. -/
structure Follower where
  sr : ℚ
  winLen : ℕ
  otw : Otw
  path : List (ℕ × ℤ)
deriving DecidableEq

/-- Zero-padding of a short frame (src/src/audio/ScoreFollower.tsx,
    lines 66-72, and the unnamed variant, lines 60-63). -/
def padFrame (winLen : ℕ) (frame : List Val) : List Val :=
  if frame.length < winLen then frame ++ List.replicate (winLen - frame.length) (Val.num 0)
  else frame

/-- ScoreFollower.step from src/src/audio/ScoreFollower.tsx (lines 79-84):
    pad, extract the feature, insert into the engine, append
    [refIndex, live_index] to the path, and return
    refIndex * winLength / sampleRate. The feature extractor (ChromaMaker,
    not under src/) is the extract parameter; on engine failure the throw
    propagates and the follower is left unchanged. -/
def stepTsx (dist : List Val → List Val → ℚ) (extract : List Val → List Val)
    (f : Follower) (frame : List Val) : Except StepErr ℚ × Follower :=
  match Otw.insert dist f.otw (extract (padFrame f.winLen frame)) with
  | .error e => (.error e, f)
  | .ok (j, otw2) =>
    (.ok (((j : ℚ) * (f.winLen : ℚ)) / f.sr),
     { f with otw := otw2, path := f.path ++ [(j, otw2.state.liveIndex)] })

/-- ScoreFollower.step from the unnamed source variant (src/unnamed/part_001,
    lines 59-68): identical except that it returns
    (refIndex + 1) * winLen / sr. -/
def stepPart001 (dist : List Val → List Val → ℚ) (extract : List Val → List Val)
    (f : Follower) (frame : List Val) : Except StepErr ℚ × Follower :=
  match Otw.insert dist f.otw (extract (padFrame f.winLen frame)) with
  | .error e => (.error e, f)
  | .ok (j, otw2) =>
    (.ok ((((j : ℚ) + 1) * (f.winLen : ℚ)) / f.sr),
     { f with otw := otw2, path := f.path ++ [(j, otw2.state.liveIndex)] })

/-- Modelled from the spec: initial engine state, j = 0, t = -1, empty cost
    window (spec section 4.2). -/
def otwInit (p : OtwParams) (refSeq : List (List Val)) : Otw :=
  { params := p, refSeq := refSeq,
    state := { refIndex := 0, liveIndex := -1, costCells := [], lastDir := none,
               runCount := 0, dirTrace := [] } }

/-- A freshly created ScoreFollower session: empty alignment path. -/
def followerInit (p : OtwParams) (refSeq : List (List Val)) (sr : ℚ) (winLen : ℕ) :
    Follower :=
  { sr := sr, winLen := winLen, otw := otwInit p refSeq, path := [] }

/-- Feed a sequence of live frames through step; a failed step leaves the
    follower unchanged and later frames are still offered. -/
def runSteps (dist : List Val → List Val → ℚ) (extract : List Val → List Val)
    (f : Follower) (frames : List (List Val)) : Follower :=
  frames.foldl (fun acc fr => (stepTsx dist extract acc fr).2) f

/-- The payload of a successful step result (0 for a failed one). -/
def okValue : Except StepErr ℚ → ℚ
  | .ok r => r
  | .error _ => 0

/-- The per-edge property claimed of the alignment path: both coordinates
    non-decreasing and the difference a unit step. -/
def claimStep (a b : ℕ × ℤ) : Prop :=
  a.1 ≤ b.1 ∧ a.2 ≤ b.2 ∧
  (((b.1 : ℤ) - (a.1 : ℤ), b.2 - a.2) ∈ [((1 : ℤ), (0 : ℤ)), (0, 1), (1, 1)])

/-- Invariant tying the alignment path to the engine state. -/
def pathInv (f : Follower) : Prop :=
  List.Chain' claimStep f.path ∧
  (f.path = [] ∨ f.path.getLast? = some (f.otw.state.refIndex, f.otw.state.liveIndex))

/-- Length of the maximal run of direction d at the end of a trace. -/
def trailRun (d : Dir) (l : List Dir) : ℕ :=
  (l.reverse.takeWhile fun x => decide (x = d)).length

/-- Invariant for the run-length constraint: the trailing run of each axis
    matches the runCount bookkeeping, runCount is capped, and no run longer
    than maxRunCount occurs anywhere in the trace. -/
def runInv (o : Otw) : Prop :=
  (trailRun Dir.ref o.state.dirTrace =
     if o.state.lastDir = some Dir.ref then o.state.runCount else 0) ∧
  (trailRun Dir.live o.state.dirTrace =
     if o.state.lastDir = some Dir.live then o.state.runCount else 0) ∧
  o.state.runCount ≤ o.params.maxRunCount ∧
  (¬ (List.replicate (o.params.maxRunCount + 1) Dir.ref) <:+: o.state.dirTrace) ∧
  (¬ (List.replicate (o.params.maxRunCount + 1) Dir.live) <:+: o.state.dirTrace)

theorem insert_ok_refIndex (dist : List Val → List Val → ℚ) (o : Otw) (v : List Val)
    (j : ℕ) (o2 : Otw) (h : Otw.insert dist o v = .ok (j, o2)) :
    o2.state.refIndex = j := by
  unfold Otw.insert at h
  split at h
  · exact absurd h (by simp)
  · simp only [Except.ok.injEq, Prod.mk.injEq] at h
    obtain ⟨hj, ho⟩ := h
    rw [← ho]
    exact hj

theorem insert_ok_liveIndex (dist : List Val → List Val → ℚ) (o : Otw) (v : List Val)
    (j : ℕ) (o2 : Otw) (h : Otw.insert dist o v = .ok (j, o2)) :
    o2.state.liveIndex = o.state.liveIndex + 1 := by
  unfold Otw.insert at h
  split at h
  · exact absurd h (by simp)
  · simp only [Except.ok.injEq, Prod.mk.injEq] at h
    obtain ⟨hj, ho⟩ := h
    rw [← ho]

theorem insert_ok_j_cases (dist : List Val → List Val → ℚ) (o : Otw) (v : List Val)
    (j : ℕ) (o2 : Otw) (h : Otw.insert dist o v = .ok (j, o2)) :
    j = o.state.refIndex ∨ j = o.state.refIndex + 1 := by
  unfold Otw.insert at h
  split at h
  · exact absurd h (by simp)
  · simp only [Except.ok.injEq, Prod.mk.injEq] at h
    obtain ⟨hj, ho⟩ := h
    split at hj
    · left; omega
    · right; omega

theorem mapM_hzToMidiVal_error (log2 : ℚ → ℚ) :
    ∀ (l : List Val), (∃ v ∈ l, ∃ q : ℚ, v = Val.num q ∧ q ≤ 0) →
      l.mapM (hzToMidiVal log2) = .error .nonPositiveFrequency := by
  intro l
  induction l with
  | nil => rintro ⟨v, hv, _⟩; exact absurd hv (List.not_mem_nil v)
  | cons x xs ih =>
    rintro ⟨v, hv, q, hq, hq0⟩
    rcases List.mem_cons.mp hv with hvx | hvxs
    · subst hvx
      subst hq
      have hx : hzToMidiVal log2 (Val.num q) = .error .nonPositiveFrequency := by
        simp [hzToMidiVal, hzToMidi, if_pos hq0, Except.map]
      rw [List.mapM_cons, hx]
      rfl
    · rw [List.mapM_cons]
      rcases hx : hzToMidiVal log2 x with e | b
      · cases e; rfl
      · have hxs := ih ⟨v, hvxs, q, hq, hq0⟩
        rw [hxs]
        rfl

theorem jsRem_neg_nonpos (d : ℚ) (hd : d < 0) : jsRem d 12 ≤ 0 := by
  unfold jsRem ratTrunc
  have hq : d / 12 < 0 := div_neg_of_neg_of_pos hd (by norm_num)
  rw [if_neg (not_le.mpr hq)]
  have hc : d / 12 ≤ (⌈d / 12⌉ : ℚ) := Int.le_ceil _
  have : d ≤ 12 * (⌈d / 12⌉ : ℚ) := by linarith [mul_le_mul_of_nonneg_left hc (by norm_num : (0:ℚ) ≤ 12)]
  linarith

theorem stepTsx_pathInv (dist : List Val → List Val → ℚ) (extract : List Val → List Val)
    (f : Follower) (frame : List Val) (h : pathInv f) :
    pathInv (stepTsx dist extract f frame).2 := by
  unfold stepTsx
  rcases hins : Otw.insert dist f.otw (extract (padFrame f.winLen frame)) with e | jo
  · simpa using h
  · obtain ⟨j, o2⟩ := jo
    have hj := insert_ok_j_cases dist f.otw _ j o2 hins
    have hjr := insert_ok_refIndex dist f.otw _ j o2 hins
    have hjt := insert_ok_liveIndex dist f.otw _ j o2 hins
    simp only []
    constructor
    · rw [List.chain'_append]
      refine ⟨h.1, List.chain'_singleton _, ?_⟩
      intro x hx y hy
      rcases h.2 with hemp | hlast
      · rw [hemp] at hx; simp at hx
      · rw [hlast] at hx
        simp only [Option.mem_def, Option.some.injEq] at hx
        subst hx
        simp only [List.head?_cons, Option.mem_def, Option.some.injEq] at hy
        subst hy
        unfold claimStep
        rcases hj with hj0 | hj1
        · subst hj0
          refine ⟨le_refl _, by omega, ?_⟩
          simp
          omega
        · subst hj1
          refine ⟨by omega, by omega, ?_⟩
          simp
          omega
    · right
      rw [List.getLast?_append]
      simp [hjr, hjt]

theorem runSteps_pathInv (dist : List Val → List Val → ℚ) (extract : List Val → List Val)
    (frames : List (List Val)) :
    ∀ f : Follower, pathInv f → pathInv (runSteps dist extract f frames) := by
  induction frames with
  | nil => intro f h; exact h
  | cons fr rest ih =>
    intro f h
    rw [runSteps, List.foldl_cons]
    exact ih _ (stepTsx_pathInv dist extract f fr h)

theorem trailRun_append_same (d : Dir) (l : List Dir) :
    trailRun d (l ++ [d]) = trailRun d l + 1 := by
  unfold trailRun
  rw [List.reverse_append]
  simp [List.takeWhile]

theorem trailRun_append_ne (d e : Dir) (l : List Dir) (h : e ≠ d) :
    trailRun d (l ++ [e]) = 0 := by
  unfold trailRun
  rw [List.reverse_append]
  simp [List.takeWhile, h]

theorem takeWhile_replicate_append_le (d : Dir) (k : ℕ) (r : List Dir) :
    k ≤ (List.takeWhile (fun x => decide (x = d)) (List.replicate k d ++ r)).length := by
  induction k with
  | zero => exact Nat.zero_le _
  | succ n ih =>
    rw [List.replicate_succ, List.cons_append]
    simp [List.takeWhile_cons]

theorem suffix_replicate_le_trailRun (d : Dir) (k : ℕ) (l : List Dir)
    (h : (List.replicate k d) <:+ l) : k ≤ trailRun d l := by
  obtain ⟨u, hu⟩ := h
  unfold trailRun
  rw [← hu, List.reverse_append, List.reverse_replicate]
  exact takeWhile_replicate_append_le d k u.reverse

theorem infix_append_singleton (x l : List Dir) (a : Dir) (h : x <:+: (l ++ [a])) :
    x <:+: l ∨ x <:+ (l ++ [a]) := by
  obtain ⟨s, t, hst⟩ := h
  rcases List.eq_nil_or_concat t with rfl | ⟨t2, b, rfl⟩
  · right
    exact ⟨s, by simpa using hst⟩
  · left
    have h2 : (s ++ (x ++ t2)) ++ [b] = l ++ [a] := by
      simpa [List.append_assoc] using hst
    have h3 := (List.append_inj' h2 (by simp)).1
    exact ⟨s, t2, by simpa [List.append_assoc] using h3⟩

theorem chooseDirGo_mem (costOf : Dir → Option ℚ) :
    ∀ (rest : List Dir) (d : Dir),
      (rest.foldl (fun best x => if optLt (costOf x) (costOf best) then x else best) d)
        ∈ d :: rest := by
  intro rest
  induction rest with
  | nil => intro d; simp
  | cons x rest2 ih =>
    intro d
    rw [List.foldl_cons]
    by_cases hc : optLt (costOf x) (costOf d) = true
    · rw [if_pos hc]
      exact List.mem_cons_of_mem d (ih x)
    · rw [if_neg hc]
      rcases List.mem_cons.mp (ih d) with h | h
      · rw [h]; exact List.mem_cons_self d _
      · exact List.mem_cons_of_mem d (List.mem_cons_of_mem x h)

theorem chooseDir_mem (allowed : List Dir) (costOf : Dir → Option ℚ)
    (h : allowed ≠ []) : chooseDir allowed costOf ∈ allowed := by
  match allowed with
  | [] => exact absurd rfl h
  | d :: rest => exact chooseDirGo_mem costOf rest d

theorem allowedDirs_ne_nil (p : OtwParams) (s : OtwState) : allowedDirs p s ≠ [] := by
  unfold allowedDirs
  split <;> (try split) <;> simp

theorem noInfix_of_append (m : ℕ) (d : Dir) (l : List Dir) (e : Dir)
    (hno : ¬ (List.replicate (m + 1) d) <:+: l)
    (htr : trailRun d (l ++ [e]) ≤ m) :
    ¬ (List.replicate (m + 1) d) <:+: (l ++ [e]) := by
  intro hin
  rcases infix_append_singleton _ _ _ hin with h | h
  · exact hno h
  · have := suffix_replicate_le_trailRun d (m + 1) _ h
    omega

theorem trailRun_ref_live (l : List Dir) : trailRun Dir.ref (l ++ [Dir.live]) = 0 :=
  trailRun_append_ne _ _ _ (by simp)

theorem trailRun_ref_both (l : List Dir) : trailRun Dir.ref (l ++ [Dir.both]) = 0 :=
  trailRun_append_ne _ _ _ (by simp)

theorem trailRun_live_ref (l : List Dir) : trailRun Dir.live (l ++ [Dir.ref]) = 0 :=
  trailRun_append_ne _ _ _ (by simp)

theorem trailRun_live_both (l : List Dir) : trailRun Dir.live (l ++ [Dir.both]) = 0 :=
  trailRun_append_ne _ _ _ (by simp)

theorem insert_runInv (dist : List Val → List Val → ℚ) (o : Otw) (v : List Val)
    (j : ℕ) (o2 : Otw) (h1 : 1 ≤ o.params.maxRunCount)
    (hins : Otw.insert dist o v = .ok (j, o2)) (h : runInv o) :
    runInv o2 ∧ o2.params = o.params := by
  obtain ⟨href, hlive, hrc, hniref, hnilive⟩ := h
  unfold Otw.insert at hins
  split at hins
  · exact absurd hins (by simp)
  · simp only [Except.ok.injEq, Prod.mk.injEq] at hins
    obtain ⟨hj, ho⟩ := hins
    subst ho
    refine ⟨?_, rfl⟩
    set D := chooseDir (allowedDirs o.params o.state)
      (candCost (updateColumn dist o.refSeq o.params o.state.costCells o.state.refIndex
        (o.state.liveIndex + 1) v) o.state.refIndex (o.state.liveIndex + 1)) with hD
    have hmem : D ∈ allowedDirs o.params o.state :=
      chooseDir_mem _ _ (allowedDirs_ne_nil o.params o.state)
    unfold runInv
    simp only []
    rcases hDc : D with _ | _ | _
    · -- D = Dir.ref : if the run-length cap were reached on ref, ref would not be allowed
      have hcap : o.state.lastDir = some Dir.ref → o.state.runCount < o.params.maxRunCount := by
        intro hl
        by_contra hge
        push_neg at hge
        have h2 := hmem
        rw [hDc] at h2
        simp only [allowedDirs, hl] at h2
        rw [if_pos hge] at h2
        simp at h2
      rcases hl : o.state.lastDir with _ | dprev
      · refine ⟨?_, ?_, by simp <;> omega, ?_, ?_⟩
        · simp [trailRun_append_same, href, hl]
        · simp [trailRun_live_ref]
        · exact noInfix_of_append _ _ _ _ hniref
            (by simp [trailRun_append_same, href, hl] <;> omega)
        · exact noInfix_of_append _ _ _ _ hnilive (by simp [trailRun_live_ref])
      · rcases dprev with _ | _ | _
        · have hlt := hcap hl
          refine ⟨?_, ?_, by simp [hl] <;> omega, ?_, ?_⟩
          · simp [trailRun_append_same, href, hl]
          · simp [trailRun_live_ref]
          · exact noInfix_of_append _ _ _ _ hniref
              (by simp [trailRun_append_same, href, hl] <;> omega)
          · exact noInfix_of_append _ _ _ _ hnilive (by simp [trailRun_live_ref])
        · refine ⟨?_, ?_, by simp [hl] <;> omega, ?_, ?_⟩
          · simp [trailRun_append_same, href, hl]
          · simp [trailRun_live_ref]
          · exact noInfix_of_append _ _ _ _ hniref
              (by simp [trailRun_append_same, href, hl] <;> omega)
          · exact noInfix_of_append _ _ _ _ hnilive (by simp [trailRun_live_ref])
        · refine ⟨?_, ?_, by simp [hl] <;> omega, ?_, ?_⟩
          · simp [trailRun_append_same, href, hl]
          · simp [trailRun_live_ref]
          · exact noInfix_of_append _ _ _ _ hniref
              (by simp [trailRun_append_same, href, hl] <;> omega)
          · exact noInfix_of_append _ _ _ _ hnilive (by simp [trailRun_live_ref])
    · -- D = Dir.live
      have hcap : o.state.lastDir = some Dir.live → o.state.runCount < o.params.maxRunCount := by
        intro hl
        by_contra hge
        push_neg at hge
        have h2 := hmem
        rw [hDc] at h2
        simp only [allowedDirs, hl] at h2
        rw [if_pos hge] at h2
        simp at h2
      rcases hl : o.state.lastDir with _ | dprev
      · refine ⟨?_, ?_, by simp <;> omega, ?_, ?_⟩
        · simp [trailRun_ref_live]
        · simp [trailRun_append_same, hlive, hl]
        · exact noInfix_of_append _ _ _ _ hniref (by simp [trailRun_ref_live])
        · exact noInfix_of_append _ _ _ _ hnilive
            (by simp [trailRun_append_same, hlive, hl] <;> omega)
      · rcases dprev with _ | _ | _
        · refine ⟨?_, ?_, by simp [hl] <;> omega, ?_, ?_⟩
          · simp [trailRun_ref_live]
          · simp [trailRun_append_same, hlive, hl]
          · exact noInfix_of_append _ _ _ _ hniref (by simp [trailRun_ref_live])
          · exact noInfix_of_append _ _ _ _ hnilive
              (by simp [trailRun_append_same, hlive, hl] <;> omega)
        · have hlt := hcap hl
          refine ⟨?_, ?_, by simp [hl] <;> omega, ?_, ?_⟩
          · simp [trailRun_ref_live]
          · simp [trailRun_append_same, hlive, hl]
          · exact noInfix_of_append _ _ _ _ hniref (by simp [trailRun_ref_live])
          · exact noInfix_of_append _ _ _ _ hnilive
              (by simp [trailRun_append_same, hlive, hl] <;> omega)
        · refine ⟨?_, ?_, by simp [hl] <;> omega, ?_, ?_⟩
          · simp [trailRun_ref_live]
          · simp [trailRun_append_same, hlive, hl]
          · exact noInfix_of_append _ _ _ _ hniref (by simp [trailRun_ref_live])
          · exact noInfix_of_append _ _ _ _ hnilive
              (by simp [trailRun_append_same, hlive, hl] <;> omega)
    · -- D = Dir.both
      refine ⟨?_, ?_, by simp <;> omega, ?_, ?_⟩
      · simp [trailRun_ref_both]
      · simp [trailRun_live_both]
      · exact noInfix_of_append _ _ _ _ hniref (by simp [trailRun_ref_both])
      · exact noInfix_of_append _ _ _ _ hnilive (by simp [trailRun_live_both])

theorem stepTsx_runInv (dist : List Val → List Val → ℚ) (extract : List Val → List Val)
    (f : Follower) (frame : List Val) (h1 : 1 ≤ f.otw.params.maxRunCount)
    (h : runInv f.otw) :
    runInv (stepTsx dist extract f frame).2.otw ∧
      (stepTsx dist extract f frame).2.otw.params = f.otw.params := by
  unfold stepTsx
  rcases hins : Otw.insert dist f.otw (extract (padFrame f.winLen frame)) with e | jo
  · exact ⟨h, rfl⟩
  · obtain ⟨j, o2⟩ := jo
    simp only []
    exact insert_runInv dist f.otw _ j o2 h1 hins h

theorem runSteps_runInv (dist : List Val → List Val → ℚ) (extract : List Val → List Val)
    (frames : List (List Val)) :
    ∀ f : Follower, 1 ≤ f.otw.params.maxRunCount → runInv f.otw →
      runInv (runSteps dist extract f frames).otw ∧
        (runSteps dist extract f frames).otw.params = f.otw.params := by
  induction frames with
  | nil => intro f _ h; exact ⟨h, rfl⟩
  | cons fr rest ih =>
    intro f h1 h
    rw [runSteps, List.foldl_cons]
    have hstep := stepTsx_runInv dist extract f fr h1 h
    have hrec := ih (stepTsx dist extract f fr).2 (by rw [hstep.2]; exact h1) hstep.1
    exact ⟨hrec.1, hrec.2.trans hstep.2⟩

theorem jsArgminAbsGo_no_update (l : List ℚ) :
    ∀ (i b : ℕ) (bAbs : ℚ), (∀ x ∈ l, ¬ (|x| < bAbs)) →
      jsArgminAbsGo l i b bAbs = b := by
  induction l with
  | nil => intro i b bAbs _; rfl
  | cons x rest ih =>
    intro i b bAbs h
    unfold jsArgminAbsGo
    rw [if_neg (h x (List.mem_cons_self x rest))]
    exact ih (i + 1) b bAbs fun y hy => h y (List.mem_cons_of_mem x hy)

theorem jsArgminAbsGo_finds (l : List ℚ) :
    ∀ (i k b : ℕ) (bAbs : ℚ), i ≤ k → k - i < l.length →
      (∀ j, j < l.length → i + j ≠ k → |l.getD (k - i) 0| < |l.getD j 0|) →
      |l.getD (k - i) 0| < bAbs →
      jsArgminAbsGo l i b bAbs = k := by
  induction l with
  | nil => intro i k b bAbs _ hlen _ _; simp at hlen
  | cons x rest ih =>
    intro i k b bAbs hik hlen hdist hlt
    by_cases hik2 : i = k
    · subst hik2
      rw [Nat.sub_self] at hlt
      rw [List.getD_cons_zero] at hlt
      unfold jsArgminAbsGo
      rw [if_pos hlt]
      apply jsArgminAbsGo_no_update
      intro y hy
      obtain ⟨j, hjlen, hyj⟩ := List.mem_iff_getElem.mp hy
      have hd := hdist (j + 1) (by simpa using Nat.succ_lt_succ hjlen) (by omega)
      rw [Nat.sub_self, List.getD_cons_zero, List.getD_cons_succ] at hd
      rw [List.getD_eq_getElem rest 0 hjlen, hyj] at hd
      exact not_lt.mpr (le_of_lt hd)
    · have hik3 : i < k := lt_of_le_of_ne hik hik2
      have hsub : k - i = (k - (i + 1)) + 1 := by omega
      rw [hsub, List.getD_cons_succ] at hlt
      have hdist2 : ∀ j, j < rest.length → (i + 1) + j ≠ k →
          |rest.getD (k - (i + 1)) 0| < |rest.getD j 0| := by
        intro j hj hjk
        have := hdist (j + 1) (by simpa using Nat.succ_lt_succ hj) (by omega)
        rw [hsub, List.getD_cons_succ, List.getD_cons_succ] at this
        exact this
      have hlen2 : k - (i + 1) < rest.length := by
        simp only [List.length_cons] at hlen
        omega
      unfold jsArgminAbsGo
      by_cases hx : |x| < bAbs
      · rw [if_pos hx]
        apply ih (i + 1) k i |x| (by omega) hlen2 hdist2
        have := hdist 0 (by simp) (by omega)
        rw [hsub, List.getD_cons_succ, List.getD_cons_zero] at this
        exact this
      · rw [if_neg hx]
        exact ih (i + 1) k b bAbs (by omega) hlen2 hdist2 hlt

theorem jsArgminAbs_eq (l : List ℚ) (k : ℕ) (hk : k < l.length)
    (h : ∀ j, j < l.length → j ≠ k → |l.getD k 0| < |l.getD j 0|) :
    jsArgminAbs l = k := by
  match l with
  | [] => simp at hk
  | x :: rest =>
    by_cases hk0 : k = 0
    · subst hk0
      unfold jsArgminAbs
      apply jsArgminAbsGo_no_update
      intro y hy
      obtain ⟨j, hjlen, hyj⟩ := List.mem_iff_getElem.mp hy
      have hd := h (j + 1) (by simpa using Nat.succ_lt_succ hjlen) (by omega)
      rw [List.getD_cons_zero, List.getD_cons_succ] at hd
      rw [List.getD_eq_getElem rest 0 hjlen, hyj] at hd
      exact not_lt.mpr (le_of_lt hd)
    · unfold jsArgminAbs
      have hsub : k = (k - 1) + 1 := by omega
      apply jsArgminAbsGo_finds rest 1 k 0 |x| (by omega)
        (by simp only [List.length_cons] at hk; omega)
      · intro j hj hjk
        have hh := h (j + 1) (by simpa using Nat.succ_lt_succ hj) (by omega)
        rw [hsub, List.getD_cons_succ, List.getD_cons_succ] at hh
        exact hh
      · have := h 0 (by simp) (by omega)
        rw [hsub, List.getD_cons_succ, List.getD_cons_zero] at this
        exact this

theorem chain_fst_arith (p : List (ℤ × ℤ))
    (hchain : List.Chain' (fun a b => b.1 = a.1 + 1) p) :
    ∀ (i : ℕ), i < p.length → (p.getD i (0, 0)).1 = (p.getD 0 (0, 0)).1 + i := by
  intro i
  induction i with
  | zero => intro _; simp
  | succ n ih =>
    intro hi
    have hn : n < p.length := by omega
    have hstep := List.chain'_iff_get.mp hchain n (by omega)
    have hg1 : p.get ⟨n, hn⟩ = p.getD n (0, 0) := by
      rw [List.getD_eq_getElem _ _ hn]
      rfl
    have hg2 : p.get ⟨n + 1, hi⟩ = p.getD (n + 1) (0, 0) := by
      rw [List.getD_eq_getElem _ _ hi]
      rfl
    rw [hg1, hg2] at hstep
    rw [hstep, ih hn]
    push_cast
    ring

theorem warpOne_at_sample (p : List (ℤ × ℤ)) (s : ℚ) (hs : 0 < s)
    (hchain : List.Chain' (fun a b => b.1 = a.1 + 1) p)
    (k : ℕ) (hk : k < p.length) :
    warpOne (p.map fun pr => (pr.1 : ℚ) * s) (p.map fun pr => (pr.2 : ℚ) * s) s
      (((p.getD k (0, 0)).1 : ℚ) * s) = ((p.getD k (0, 0)).2 : ℚ) * s := by
  have hlen0 : 0 < p.length := by omega
  set q : ℚ := ((p.getD k (0, 0)).1 : ℚ) * s with hq
  have hfst : ∀ (j : ℕ), j < p.length →
      (((p.getD j (0, 0)).1 : ℤ) : ℚ) = (((p.getD 0 (0, 0)).1 : ℤ) : ℚ) + j := by
    intro j hj
    exact_mod_cast congrArg (fun z : ℤ => (z : ℚ)) (chain_fst_arith p hchain j hj)
  have hgetDmap : ∀ (g : ℤ × ℤ → ℚ) (j : ℕ), j < p.length →
      (p.map g).getD j 0 = g (p.getD j (0, 0)) := by
    intro g j hj
    rw [List.getD_eq_getElem _ _ (by simpa using hj), List.getElem_map,
      List.getD_eq_getElem _ _ hj]
  have hmm : ((p.map fun pr => (pr.1 : ℚ) * s).map fun t => t - q) =
      p.map fun pr => (pr.1 : ℚ) * s - q := by
    rw [List.map_map]; rfl
  have hDF : ∀ (j : ℕ), j < p.length →
      ((p.map fun pr => (pr.1 : ℚ) * s - q).getD j 0) = ((j : ℚ) - (k : ℚ)) * s := by
    intro j hj
    rw [hgetDmap _ j hj, hq, hfst j hj, hfst k hk]
    ring
  have hdk : ((p.map fun pr => (pr.1 : ℚ) * s - q).getD k 0) = 0 := by
    rw [hDF k hk]; ring
  have hargmin : jsArgminAbs ((p.map fun pr => (pr.1 : ℚ) * s).map fun t => t - q) = k := by
    rw [hmm]
    apply jsArgminAbs_eq _ k (by simpa using hk)
    intro j hj hjk
    rw [hdk, hDF j (by simpa using hj)]
    have h1le : (1 : ℚ) ≤ |(j : ℚ) - (k : ℚ)| := by
      have hz : (1 : ℤ) ≤ |(j : ℤ) - (k : ℤ)| :=
        Int.one_le_abs (sub_ne_zero.mpr (by exact_mod_cast hjk))
      exact_mod_cast hz
    rw [abs_mul, abs_of_pos hs]
    simp only [abs_zero]
    nlinarith
  simp only [warpOne]
  rw [hargmin, hmm, hdk]
  by_cases hk0 : k = 0
  · subst hk0
    rw [if_neg (show ¬((0:ℚ) ≤ 0 ∧ (0:ℕ) < 0) by simp)]
    by_cases hlen1 : 0 + 1 < (List.map (fun pr => ((pr.2 : ℚ)) * s) p).length
    · rw [if_pos hlen1]
      rw [if_neg (show ¬(((0:ℕ), 0 + 1).1 = ((0:ℕ), 0 + 1).2) by simp)]
      simp only [show (((0:ℕ), 0 + 1).1) = 0 from rfl, show (((0:ℕ), 0 + 1).2) = 1 from rfl]
      have hoff : q - (List.map (fun pr => ((pr.1 : ℚ)) * s) p).getD 0 0 = 0 := by
        rw [hgetDmap _ 0 hlen0, hq, hfst 0 hlen0]
        ring
      rw [hoff, if_pos rfl, hgetDmap _ 0 hlen0]
      ring
    · rw [if_neg hlen1]
      rw [if_pos rfl, hgetDmap _ 0 hlen0]
  · rw [if_pos (show (0:ℚ) ≤ 0 ∧ 0 < k from ⟨le_refl 0, by omega⟩)]
    rw [if_neg (show ¬((k - 1, k).1 = (k - 1, k).2) by simp; omega)]
    simp only [show ((k - 1, k).1) = k - 1 from rfl, show ((k - 1, k).2) = k from rfl]
    have hk1 : k - 1 < p.length := by omega
    have hoff : q - (List.map (fun pr => ((pr.1 : ℚ)) * s) p).getD (k - 1) 0 = s := by
      rw [hgetDmap _ (k - 1) hk1, hq, hfst (k - 1) hk1, hfst k hk]
      have hcast : ((k - 1 : ℕ) : ℚ) = (k : ℚ) - 1 := by
        have h1k : (1 : ℕ) ≤ k := by omega
        push_cast [h1k]
        ring
      rw [hcast]
      ring
    rw [hoff, if_neg (ne_of_gt hs), div_self (ne_of_gt hs)]
    rw [hgetDmap _ k hk, hgetDmap _ (k - 1) hk1]
    ring

theorem chain_fst_lt (p : List (ℤ × ℤ))
    (hchain : List.Chain' (fun a b : ℤ × ℤ => a.1 < b.1) p) :
    ∀ i j : ℕ, i < j → j < p.length → (p.getD i (0, 0)).1 < (p.getD j (0, 0)).1 := by
  intro i j
  induction j with
  | zero => intro hij _; omega
  | succ m ih =>
    intro hij hj
    have hm : m < p.length := by omega
    have hstep := List.chain'_iff_get.mp hchain m (by omega)
    have hg1 : p.get ⟨m, hm⟩ = p.getD m (0, 0) := by
      rw [List.getD_eq_getElem _ _ hm]; rfl
    have hg2 : p.get ⟨m + 1, hj⟩ = p.getD (m + 1) (0, 0) := by
      rw [List.getD_eq_getElem _ _ hj]; rfl
    rw [hg1, hg2] at hstep
    rcases Nat.lt_succ_iff_lt_or_eq.mp hij with h | h
    · exact lt_trans (ih h hm) hstep
    · subst h; exact hstep

/-- Claim C1: for every sequence of step calls on a fresh ScoreFollower
    session, consecutive AlignmentPath entries are coordinate-wise
    non-decreasing and differ by a unit step in {(1,0),(0,1),(1,1)} (the
    engine, spec-modelled since the Otw module is not under src, produces
    only (0,1) and (1,1) increments). -/
theorem claim_C1_alignment_path_unit_steps (p : OtwParams) (refSeq : List (List Val))
    (sr : ℚ) (winLen : ℕ) (dist : List Val → List Val → ℚ)
    (extract : List Val → List Val) (frames : List (List Val)) :
    List.Chain' claimStep
      (runSteps dist extract (followerInit p refSeq sr winLen) frames).path :=
  (runSteps_pathInv dist extract frames (followerInit p refSeq sr winLen)
    ⟨List.chain'_nil, Or.inl rfl⟩).1

/-- Claim C2: for every input feature stream, the direction trace of the
    spec-modelled engine never contains more than maxRunCount consecutive
    advances of the same single axis, provided maxRunCount is at least one
    (the default is 3). -/
theorem claim_C2_run_length_constraint (p : OtwParams) (refSeq : List (List Val))
    (sr : ℚ) (winLen : ℕ) (dist : List Val → List Val → ℚ)
    (extract : List Val → List Val) (frames : List (List Val))
    (hm : 1 ≤ p.maxRunCount) (d : Dir) (hd : d ≠ Dir.both) :
    ¬ (List.replicate (p.maxRunCount + 1) d) <:+:
      (runSteps dist extract (followerInit p refSeq sr winLen) frames).otw.state.dirTrace := by
  have hinit : runInv (followerInit p refSeq sr winLen).otw := by
    refine ⟨by simp [trailRun, followerInit, otwInit], by simp [trailRun, followerInit, otwInit],
      by simp [followerInit, otwInit], ?_, ?_⟩
    · intro hcontra
      have := List.eq_nil_of_infix_nil hcontra
      simp at this
    · intro hcontra
      have := List.eq_nil_of_infix_nil hcontra
      simp at this
  obtain ⟨hinv, hparams⟩ := runSteps_runInv dist extract frames _ hm hinit
  obtain ⟨_, _, _, hr, hl⟩ := hinv
  have hpm : (runSteps dist extract (followerInit p refSeq sr winLen) frames).otw.params = p :=
    hparams
  rcases d with _ | _ | _
  · rw [hpm] at hr; exact hr
  · rw [hpm] at hl; exact hl
  · exact absurd rfl hd

/-- Witness for claim C2 at maxRunCount = 1 with a concrete two-frame
    session. -/
theorem claim_C2_witness :
    1 ≤ ({ c := 1, maxRunCount := 1, diagWeight := 1/2 } : OtwParams).maxRunCount ∧
    Dir.ref ≠ Dir.both ∧
    ¬ (List.replicate (({ c := 1, maxRunCount := 1, diagWeight := 1/2 } : OtwParams).maxRunCount + 1) Dir.ref) <:+:
      (runSteps (fun _ _ => 0) id
        (followerInit { c := 1, maxRunCount := 1, diagWeight := 1/2 } [[Val.num 0]] 1 1)
        [[Val.num 0], [Val.num 0]]).otw.state.dirTrace :=
  ⟨by decide, by decide,
    claim_C2_run_length_constraint { c := 1, maxRunCount := 1, diagWeight := 1/2 }
      [[Val.num 0]] 1 1 (fun _ _ => 0) id [[Val.num 0], [Val.num 0]] (by decide) Dir.ref
      (by decide)⟩

/-- Claim C3, corrected: when a step succeeds, the ScoreFollower.tsx variant
    returns j * winLength / sampleRate for the reference index j reported by
    the engine insert, while the unnamed part_001 variant returns
    (j + 1) * winLen / sr. -/
theorem claim_C3_step_return_formulas (dist : List Val → List Val → ℚ)
    (extract : List Val → List Val) (f : Follower) (frame : List Val)
    (r : ℚ) (f2 : Follower) :
    ((stepTsx dist extract f frame = (.ok r, f2)) →
      r = (f2.otw.state.refIndex : ℚ) * (f.winLen : ℚ) / f.sr) ∧
    ((stepPart001 dist extract f frame = (.ok r, f2)) →
      r = ((f2.otw.state.refIndex : ℚ) + 1) * (f.winLen : ℚ) / f.sr) := by
  constructor
  · intro h
    unfold stepTsx at h
    rcases hins : Otw.insert dist f.otw (extract (padFrame f.winLen frame)) with e | jo
    · rw [hins] at h; exact absurd h (by simp)
    · rw [hins] at h
      obtain ⟨j, o2⟩ := jo
      simp only [Prod.mk.injEq, Except.ok.injEq] at h
      obtain ⟨hr, hf⟩ := h
      have hj := insert_ok_refIndex dist f.otw _ j o2 hins
      rw [← hf]
      simp only []
      rw [hj, ← hr]
  · intro h
    unfold stepPart001 at h
    rcases hins : Otw.insert dist f.otw (extract (padFrame f.winLen frame)) with e | jo
    · rw [hins] at h; exact absurd h (by simp)
    · rw [hins] at h
      obtain ⟨j, o2⟩ := jo
      simp only [Prod.mk.injEq, Except.ok.injEq] at h
      obtain ⟨hr, hf⟩ := h
      have hj := insert_ok_refIndex dist f.otw _ j o2 hins
      rw [← hf]
      simp only []
      rw [hj, ← hr]

/-- Witness for claim C3: a concrete successful step of the tsx variant,
    where the returned value equals the j-formula. -/
theorem claim_C3_witness :
    okValue (stepTsx (fun _ _ => 0) id
      (followerInit { c := 1, maxRunCount := 3, diagWeight := 1/2 } [[Val.num 0]] 1 1)
      [Val.num 0]).1 =
    (((stepTsx (fun _ _ => 0) id
      (followerInit { c := 1, maxRunCount := 3, diagWeight := 1/2 } [[Val.num 0]] 1 1)
      [Val.num 0]).2.otw.state.refIndex : ℚ) * 1) / 1 :=
  (claim_C3_step_return_formulas (fun _ _ => 0) id
    (followerInit { c := 1, maxRunCount := 3, diagWeight := 1/2 } [[Val.num 0]] 1 1)
    [Val.num 0] _ _).1 rfl

/-- Claim C4: when the extracted live feature or the reference sequence is
    malformed (NaN entries or wrong dimension), step fails with
    FeatureMismatch and the follower, its path, and all engine state are
    returned exactly as they were (atomic step). The engine is spec-modelled
    since the Otw module is not under src. -/
theorem claim_C4_feature_mismatch_atomic (dist : List Val → List Val → ℚ)
    (extract : List Val → List Val) (f : Follower) (frame : List Val)
    (h : (liveMalformed f.otw.refSeq (extract (padFrame f.winLen frame)) ||
          refMalformed f.otw.refSeq) = true) :
    stepTsx dist extract f frame = (.error .featureMismatch, f) := by
  unfold stepTsx Otw.insert
  rw [if_pos h]

/-- Witness for claim C4: a NaN frame fails a concrete step and leaves the
    concrete follower unchanged. -/
theorem claim_C4_witness :
    (liveMalformed (followerInit { c := 1, maxRunCount := 3, diagWeight := 1/2 }
        [[Val.num 0]] 1 1).otw.refSeq (id (padFrame 1 [Val.nan])) ||
      refMalformed (followerInit { c := 1, maxRunCount := 3, diagWeight := 1/2 }
        [[Val.num 0]] 1 1).otw.refSeq) = true ∧
    stepTsx (fun _ _ => 0) id
      (followerInit { c := 1, maxRunCount := 3, diagWeight := 1/2 } [[Val.num 0]] 1 1)
      [Val.nan] =
    (.error .featureMismatch,
      followerInit { c := 1, maxRunCount := 3, diagWeight := 1/2 } [[Val.num 0]] 1 1) :=
  ⟨rfl, claim_C4_feature_mismatch_atomic (fun _ _ => 0) id
    (followerInit { c := 1, maxRunCount := 3, diagWeight := 1/2 } [[Val.num 0]] 1 1)
    [Val.nan] rfl⟩

/-- Claim C6, corrected: the filter discards NaN candidates; for a numeric
    candidate with deviation d = candidate - scorePitch it keeps the
    candidate exactly when d <= 2, or when 12 < d < 36 and the JS remainder
    d % 12 is at most 2. The threshold test is one-sided (negative
    deviations of any size are kept) and only deviations of three or more
    octaves above the score pitch are rejected entirely. -/
theorem claim_C6_filter_characterization (sp c : ℚ) :
    diffOfCandidate sp Val.nan = none ∧
    ((diffOfCandidate sp (Val.num c)).isSome = true ↔
      (c - sp ≤ 2 ∨ (12 < c - sp ∧ c - sp < 36 ∧ jsRem (c - sp) 12 ≤ 2))) := by
  refine ⟨rfl, ?_⟩
  simp only [diffOfCandidate, OCTAVE_OFF_THRESHOLD, SEMITONE_THRESHOLD]
  set d := c - sp with hd
  by_cases h12 : 12 < |d|
  · rw [if_pos h12]
    by_cases hOct : (2 : ℤ) < ⌊d / 12⌋
    · rw [if_pos hOct]
      have h36 : (36 : ℚ) ≤ d := by
        have h3 : (3 : ℤ) ≤ ⌊d / 12⌋ := hOct
        have h3q : (3 : ℚ) ≤ d / 12 := by exact_mod_cast Int.le_floor.mp h3
        linarith
      simp only [Option.isSome_none, Bool.false_eq_true, false_iff]
      push_neg
      exact ⟨by linarith, fun _ _ => by linarith⟩
    · rw [if_neg hOct]
      have hlt36 : d < 36 := by
        have hle : ⌊d / 12⌋ < 3 := by omega
        have : d / 12 < 3 := by exact_mod_cast Int.floor_lt.mp hle
        linarith
      rcases lt_abs.mp h12 with hpos | hneg
      · by_cases hr : (2 : ℚ) < jsRem d 12
        · rw [if_pos hr]
          simp only [Option.isSome_none, Bool.false_eq_true, false_iff]
          push_neg
          exact ⟨by linarith, fun _ _ => by linarith⟩
        · rw [if_neg hr]
          simp only [Option.isSome_some, true_iff]
          exact Or.inr ⟨hpos, hlt36, le_of_not_lt hr⟩
      · have hdneg : d < 0 := by linarith
        have hrem : jsRem d 12 ≤ 0 := jsRem_neg_nonpos d hdneg
        rw [if_neg (by linarith : ¬ (2 : ℚ) < jsRem d 12)]
        simp only [Option.isSome_some, true_iff]
        exact Or.inl (by linarith)
  · rw [if_neg h12]
    have habs := abs_le.mp (le_of_not_lt h12)
    by_cases hth : (2 : ℚ) < d
    · rw [if_pos hth]
      simp only [Option.isSome_none, Bool.false_eq_true, false_iff]
      push_neg
      exact ⟨by linarith, fun h12d => absurd h12d (by linarith)⟩
    · rw [if_neg hth]
      simp only [Option.isSome_some, true_iff]
      exact Or.inl (le_of_not_lt hth)

/-- Claim C7, corrected: when every path entry advances the reference index
    by exactly one frame, mapping the sampled reference times of the path
    returns exactly the corresponding live times. (The original claim fails
    when the reference index repeats, see the counterexample.) -/
theorem claim_C7_round_trip (p : List (ℤ × ℤ)) (s : ℚ) (hs : 0 < s)
    (hchain : List.Chain' (fun a b => b.1 = a.1 + 1) p) :
    calculateWarpedTimes p s (p.map fun pr => (pr.1 : ℚ) * s) =
      p.map fun pr => (pr.2 : ℚ) * s := by
  unfold calculateWarpedTimes
  simp only []
  apply List.ext_getElem
  · simp
  · intro k hk1 hk2
    have hkp : k < p.length := by simpa using hk2
    have hgetDmap : ∀ (g : ℤ × ℤ → ℚ),
        (List.map g p).getD k 0 = g (p.getD k (0, 0)) := by
      intro g
      rw [List.getD_eq_getElem _ _ (by simpa using hkp), List.getElem_map,
        List.getD_eq_getElem _ _ hkp]
    have h1 := warpOne_at_sample p s hs hchain k hkp
    simp only [List.getElem_map]
    rw [List.getD_eq_getElem _ _ hkp] at h1
    exact h1

/-- Witness for claim C7 on a concrete strictly-advancing path. -/
theorem claim_C7_witness :
    (0 : ℚ) < 1 ∧
    List.Chain' (fun a b : ℤ × ℤ => b.1 = a.1 + 1) [(0, 0), (1, 1), (2, 3)] ∧
    calculateWarpedTimes [(0, 0), (1, 1), (2, 3)] 1
      ([((0:ℤ), (0:ℤ)), (1, 1), (2, 3)].map fun pr => (pr.1 : ℚ) * 1) =
      [((0:ℤ), (0:ℤ)), (1, 1), (2, 3)].map fun pr => (pr.2 : ℚ) * 1 :=
  ⟨by norm_num, by norm_num [List.chain'_cons],
    claim_C7_round_trip [(0, 0), (1, 1), (2, 3)] 1 (by norm_num)
      (by norm_num [List.chain'_cons])⟩

/-- Claim C8, corrected: a query after the last path sample returns the last
    live time unmodified, and the mapper is a total function. (A query
    before the first sample is linearly extrapolated instead, see the
    counterexample.) -/
theorem claim_C8_after_last_boundary (p : List (ℤ × ℤ)) (s q : ℚ) (hp : p ≠ [])
    (hs : 0 < s) (hchain : List.Chain' (fun a b : ℤ × ℤ => a.1 < b.1) p)
    (hq : ((p.getD (p.length - 1) (0, 0)).1 : ℚ) * s < q) :
    calculateWarpedTimes p s [q] = [((p.getD (p.length - 1) (0, 0)).2 : ℚ) * s] := by
  have hlen0 : 0 < p.length := List.length_pos.mpr hp
  set last := p.length - 1 with hlast
  have hgetDmap : ∀ (g : ℤ × ℤ → ℚ), ∀ j : ℕ, j < p.length →
      (List.map g p).getD j 0 = g (p.getD j (0, 0)) := by
    intro g j hj
    rw [List.getD_eq_getElem _ _ (by simpa using hj), List.getElem_map,
      List.getD_eq_getElem _ _ hj]
  have hmm : ((p.map fun pr => (pr.1 : ℚ) * s).map fun t => t - q) =
      p.map fun pr => (pr.1 : ℚ) * s - q := by
    rw [List.map_map]; rfl
  have hneg : ∀ j : ℕ, j < p.length →
      (p.map fun pr => (pr.1 : ℚ) * s - q).getD j 0 < 0 := by
    intro j hj
    rw [hgetDmap _ j hj]
    have hle : ((p.getD j (0, 0)).1 : ℚ) * s ≤ ((p.getD last (0, 0)).1 : ℚ) * s := by
      rcases eq_or_lt_of_le (show j ≤ last by omega) with h | h
      · rw [h]
      · have := chain_fst_lt p hchain j last h (by omega)
        have hcast : ((p.getD j (0, 0)).1 : ℚ) < ((p.getD last (0, 0)).1 : ℚ) := by
          exact_mod_cast this
        nlinarith
    linarith
  have hargmin : jsArgminAbs ((p.map fun pr => (pr.1 : ℚ) * s).map fun t => t - q) = last := by
    rw [hmm]
    apply jsArgminAbs_eq _ last (by simpa using (by omega : last < p.length))
    intro j hj hjk
    have hjp : j < p.length := by simpa using hj
    have hjlt : j < last := by omega
    have hltq := chain_fst_lt p hchain j last hjlt (by omega)
    have hcast : ((p.getD j (0, 0)).1 : ℚ) < ((p.getD last (0, 0)).1 : ℚ) := by
      exact_mod_cast hltq
    rw [abs_of_neg (hneg last (by omega)), abs_of_neg (hneg j hjp)]
    rw [hgetDmap _ j hjp, hgetDmap _ last (by omega)]
    nlinarith
  unfold calculateWarpedTimes
  simp only [List.map_cons, List.map_nil]
  congr 1
  simp only [warpOne]
  rw [hargmin, hmm]
  rw [if_neg (show ¬(0 ≤ (p.map fun pr => (pr.1 : ℚ) * s - q).getD last 0 ∧ 0 < last) from
    fun hcon => absurd (hneg last (by omega)) (not_lt.mpr hcon.1))]
  rw [if_neg (show ¬(last + 1 < (List.map (fun pr => ((pr.2 : ℚ)) * s) p).length) by
    simp only [List.length_map]; omega)]
  rw [if_pos rfl]
  rw [hgetDmap _ last (by omega)]

/-- Witness for claim C8 at a concrete after-last query. -/
theorem claim_C8_witness :
    ([((0:ℤ), (0:ℤ)), (1, 1)] : List (ℤ × ℤ)) ≠ [] ∧ (0 : ℚ) < 1 ∧
    List.Chain' (fun a b : ℤ × ℤ => a.1 < b.1) [(0, 0), (1, 1)] ∧
    ((([((0:ℤ), (0:ℤ)), (1, 1)].getD ([((0:ℤ), (0:ℤ)), (1, 1)].length - 1) (0, 0)).1 : ℚ) * 1 < 5) ∧
    calculateWarpedTimes [(0, 0), (1, 1)] 1 [5] =
      [(([((0:ℤ), (0:ℤ)), (1, 1)].getD ([((0:ℤ), (0:ℤ)), (1, 1)].length - 1) (0, 0)).2 : ℚ) * 1] :=
  ⟨by simp, by norm_num, by norm_num [List.chain'_cons],
    by norm_num [List.getD],
    claim_C8_after_last_boundary [(0, 0), (1, 1)] 1 5 (by simp) (by norm_num)
      (by norm_num [List.chain'_cons]) (by norm_num [List.getD])⟩

/-- Claim C10: hzToMidi throws on every non-positive frequency, and
    calculateIntonation maps every detected f0 through hzToMidi before any
    filtering, so one non-positive detector output makes the entire
    calculateIntonation call fail instead of producing a per-query null
    estimate. -/
theorem claim_C10_nonpositive_f0_aborts (detector : List Val → ℚ) (log2 : ℚ → ℚ)
    (audioSamples : List Val) (scorePitches audioTimes : List ℚ) (sampleRate : ℚ)
    (winLen hopLen : ℕ)
    (h : ∃ v ∈ calculateF0s detector audioSamples winLen hopLen, ∃ q : ℚ,
          v = Val.num q ∧ q ≤ 0) :
    calculateIntonation detector log2 audioSamples scorePitches audioTimes sampleRate
      winLen hopLen = .error .nonPositiveFrequency := by
  unfold calculateIntonation
  rw [mapM_hzToMidiVal_error log2 _ h]
  rfl

/-- Witness for claim C10: a detector returning 0 on a one-window input
    aborts the whole call. -/
theorem claim_C10_witness :
    calculateIntonation (fun _ => 0) (fun _ => 0) [Val.num 0] [60] [0] 1 1 1 =
      .error .nonPositiveFrequency :=
  claim_C10_nonpositive_f0_aborts (fun _ => 0) (fun _ => 0) [Val.num 0] [60] [0] 1 1 1
    (by
      refine ⟨Val.num 0, ?_, 0, rfl, le_refl 0⟩
      rw [show calculateF0s (fun _ => 0) [Val.num 0] 1 1 = [Val.num 0] from rfl]
      exact List.mem_singleton.mpr rfl)

/-- Claim C5 (code bug): at the spec scenario input (score pitch 60, every
    detected pitch 69), the remaining-deviation set is empty, yet the
    estimator returns the numeric score pitch 60 rather than a null
    sentinel, because the JS expression scorePitch + listMedian(...) coerces
    the null median to 0. -/
theorem claim_C5_empty_estimate_returns_score_pitch :
    estimatePitchesAtTimestamps [0] (List.replicate 2 (Val.num 69)) [60] 1 1 = [60] ∧
    listMedian ((((jsSlice (List.replicate 2 (Val.num 69)) 0 1).map
      (diffOfCandidate 60)).filterMap id)) = none := by
  constructor
  · norm_num [estimatePitchesAtTimestamps, windowNumPerTs, aggregateSizes, jsSlice,
      diffOfCandidate, listMedian, sortAsc, insertAsc, OCTAVE_OFF_THRESHOLD,
      SEMITONE_THRESHOLD, jsRem, ratTrunc, mapIdxFrom, List.replicate]
  · norm_num [jsSlice, diffOfCandidate, listMedian, OCTAVE_OFF_THRESHOLD,
      SEMITONE_THRESHOLD, List.replicate]

/-- Counterexample to claim C6: the candidate 55 against score pitch 60 has
    octave-corrected signed deviation -5, whose absolute value exceeds the
    semitone threshold 2, yet the filter keeps it (the source tests
    diff > SEMITONE_THRESHOLD one-sidedly, not in absolute value). -/
theorem claim_C6_counterexample :
    diffOfCandidate 60 (Val.num 55) = some (-5) ∧ SEMITONE_THRESHOLD < |(-5 : ℚ)| := by
  constructor
  · norm_num [diffOfCandidate, OCTAVE_OFF_THRESHOLD, SEMITONE_THRESHOLD, jsRem, ratTrunc]
  · norm_num [SEMITONE_THRESHOLD]

/-- Counterexample to claim C7: for the alignment path [(0,0),(0,1)] (a legal
    path whose second step advances only the live axis) with frame duration
    1, querying the sampled reference times [0, 0] of the path returns
    [0, 0], but the corresponding live times of the path are [0, 1]: the
    round-trip identity fails at the second entry. -/
theorem claim_C7_counterexample :
    calculateWarpedTimes [(0, 0), (0, 1)] 1
        ([((0 : ℤ), (0 : ℤ)), (0, 1)].map fun pr => (pr.1 : ℚ) * 1) = [0, 0] ∧
    ([((0 : ℤ), (0 : ℤ)), (0, 1)].map fun pr => (pr.2 : ℚ) * 1) = [0, 1] ∧
    ([0, 0] : List ℚ) ≠ [0, 1] := by
  refine ⟨by norm_num [calculateWarpedTimes, warpOne, jsArgminAbs, jsArgminAbsGo],
    by norm_num, by simp⟩

/-- Counterexample to claim C8: with path [(1,0),(2,1)] and frame duration 1,
    the query time 0 lies before the first path sample (reference time 1,
    live time 0); the mapper returns -1, a linear extrapolation below the
    boundary, not the boundary live time 0. -/
theorem claim_C8_counterexample :
    calculateWarpedTimes [(1, 0), (2, 1)] 1 [0] = [-1] ∧ ((-1 : ℚ) ≠ 0) := by
  refine ⟨by norm_num [calculateWarpedTimes, warpOne, jsArgminAbs, jsArgminAbsGo],
    by norm_num⟩

/-- Claim C9 (code bug): with a two-by-two zero cost window, current indices
    (1, 1) and b = 5 larger than the retained window, the backward walk
    reaches j = 0 with its loop guard still true (the includes([0,0]) test
    compares array references and never fires) and reads costMatrix[-1][1],
    throwing a TypeError instead of stopping early with the path built so far;
    with b = 1 the same state returns the one-entry path normally. -/
theorem claim_C9_backwards_path_throws :
    getBackwardsPath [[0, 0], [0, 0]] 1 1 5 = .error .typeError ∧
    getBackwardsPath [[0, 0], [0, 0]] 1 1 1 = .ok [(0, 1)] := by
  constructor
  · norm_num [getBackwardsPath, getBackwardsPathGo, matGet, rowGet, jsMinVal, jsStrictEq]
  · norm_num [getBackwardsPath, getBackwardsPathGo, matGet, rowGet, jsMinVal, jsStrictEq]

/-- Counterexample to claim C3: on a concrete session (window length 1,
    sample rate 1, one-frame reference), the unnamed-variant step succeeds
    with the engine reporting reference index 0, yet returns 1 rather than
    0 * winLen / sr = 0: it computes (refIndex + 1) * winLen / sr. -/
theorem claim_C3_counterexample :
    (stepPart001 (fun _ _ => 0) id
        (followerInit { c := 1, maxRunCount := 3, diagWeight := 1/2 } [[Val.num 0]] 1 1)
        [Val.num 0]).1.isOk = true ∧
    okValue (stepPart001 (fun _ _ => 0) id
        (followerInit { c := 1, maxRunCount := 3, diagWeight := 1/2 } [[Val.num 0]] 1 1)
        [Val.num 0]).1 = 1 ∧
    ((stepPart001 (fun _ _ => 0) id
        (followerInit { c := 1, maxRunCount := 3, diagWeight := 1/2 } [[Val.num 0]] 1 1)
        [Val.num 0]).2.otw.state.refIndex : ℚ) * 1 / 1 = 0 ∧
    (1 : ℚ) ≠ 0 := by
  refine ⟨rfl, ?_, ?_, by norm_num⟩
  · have h : okValue (stepPart001 (fun _ _ => 0) id
        (followerInit { c := 1, maxRunCount := 3, diagWeight := 1/2 } [[Val.num 0]] 1 1)
        [Val.num 0]).1 = ((0 : ℚ) + 1) * 1 / 1 := rfl
    rw [h]; norm_num
  · have h : (stepPart001 (fun _ _ => 0) id
        (followerInit { c := 1, maxRunCount := 3, diagWeight := 1/2 } [[Val.num 0]] 1 1)
        [Val.num 0]).2.otw.state.refIndex = 0 := by decide
    rw [h]; norm_num
